import Mathlib

/-!
Verification of the corridor-risk state-transition guard
(`src/corridor_risk.hpp`).

The C++ code is embedded shallowly: `double` becomes `ℚ` (the code only
adds, multiplies and compares its values), a thrown `std::runtime_error`
becomes an `Except RiskError` value distinguishing the four error
messages of the source, and `std::vector<RiskCoord>` becomes
`List RiskCoord`.
-/

namespace CorridorRisk

/-- Embeds `struct RiskCoord { double r; double w; };`. -/
structure RiskCoord where
  r : ℚ
  w : ℚ
  deriving DecidableEq, Repr

/-- The four distinct `std::runtime_error` messages thrown by the source,
as a tagged error type. -/
inductive RiskError where
  | emptyCorridor
  | riskValueOutOfRange
  | negativeWeight
  | residualIncreased
  deriving DecidableEq, Repr

/-- Embeds `struct RiskState { std::vector<RiskCoord> coords; double V; };`. -/
structure RiskState where
  coords : List RiskCoord
  V : ℚ
  deriving DecidableEq, Repr

/-- The tolerance `1e-9` used in `RiskState::next`. -/
def eps : ℚ := 1 / 1000000000

/-- The validation-and-accumulation loop inside `RiskState::from_raw`:
`for (const auto& c : s.coords) { if (c.r < 0.0 || c.r > 1.0) throw ...;
if (c.w < 0.0) throw ...; s.V += c.r * c.w; }`, starting from accumulator
`acc` (the source starts it at `0.0`). -/
def sumLoop : List RiskCoord → ℚ → Except RiskError ℚ
  | [], acc => .ok acc
  | c :: cs, acc =>
    if c.r < 0 ∨ c.r > 1 then .error .riskValueOutOfRange
    else if c.w < 0 then .error .negativeWeight
    else sumLoop cs (acc + c.r * c.w)

/-- Embeds `RiskState::from_raw`: reject the empty sequence
(`if (rc.empty()) throw ...`), then run the validation/accumulation loop
and package the result. -/
def RiskState.from_raw (rc : List RiskCoord) : Except RiskError RiskState :=
  if rc.isEmpty then .error .emptyCorridor
  else
    match sumLoop rc 0 with
    | .error e => .error e
    | .ok v => .ok ⟨rc, v⟩

/-- Embeds `RiskState::next`: build the candidate with `from_raw`
(propagating its errors), then reject it when `n.V > V + 1e-9`. -/
def RiskState.next (s : RiskState) (rc_next : List RiskCoord) :
    Except RiskError RiskState :=
  match RiskState.from_raw rc_next with
  | .error e => .error e
  | .ok n => if n.V > s.V + eps then .error .residualIncreased else .ok n

/-- The validity condition the loop enforces on one coordinate:
r in the unit interval and a non-negative weight. -/
def validCoord (c : RiskCoord) : Prop :=
  0 ≤ c.r ∧ c.r ≤ 1 ∧ 0 ≤ c.w

instance (c : RiskCoord) : Decidable (validCoord c) := by
  unfold validCoord; infer_instance

/-- The residual the spec promises: Σ rᵢ·wᵢ over the coordinates. -/
def residualOf (rc : List RiskCoord) : ℚ :=
  (rc.map fun c => c.r * c.w).sum

/-- Iterating `RiskState.next` along a list of coordinate sequences,
stopping at the first failure. -/
def runChain (s : RiskState) : List (List RiskCoord) → Except RiskError RiskState
  | [] => .ok s
  | rc :: rest =>
    match RiskState.next s rc with
    | .error e => .error e
    | .ok n => runChain n rest

/-- A chain of coordinate sequences is admissible from residual `v` when
each sequence validates and its residual stays within `eps` of (i.e.
does not exceed by more than `eps`) the previous residual. -/
def chainOk (v : ℚ) : List (List RiskCoord) → Bool
  | [] => true
  | rc :: rest =>
    match RiskState.from_raw rc with
    | .error _ => false
    | .ok n => if n.V ≤ v + eps then chainOk n.V rest else false

/-- The states producible by the public operations: initial construction
via `from_raw`, then any chain of successful `next` transitions. -/
inductive Reachable : RiskState → Prop where
  | construct (rc : List RiskCoord) (s : RiskState) :
      RiskState.from_raw rc = .ok s → Reachable s
  | step (s s' : RiskState) (rc : List RiskCoord) :
      Reachable s → RiskState.next s rc = .ok s' → Reachable s'

/-! ## Helper lemmas about the loop and constructors -/

theorem sumLoop_ok_of_valid (l : List RiskCoord) (hv : ∀ c ∈ l, validCoord c) :
    ∀ acc : ℚ, sumLoop l acc = .ok (acc + residualOf l) := by
  induction l with
  | nil => intro acc; simp [sumLoop, residualOf]
  | cons c cs ih =>
    intro acc
    obtain ⟨h0, h1, hw⟩ := hv c (by simp)
    have hr : ¬(c.r < 0 ∨ c.r > 1) := by
      rintro (h | h)
      · exact absurd h (not_lt.mpr h0)
      · exact absurd h (not_lt.mpr h1)
    have hcs : ∀ x ∈ cs, validCoord x := fun x hx => hv x (by simp [hx])
    rw [sumLoop, if_neg hr, if_neg (not_lt.mpr hw), ih hcs]
    congr 1
    simp [residualOf]
    ring

theorem sumLoop_append_of_valid (pre rest : List RiskCoord)
    (hpre : ∀ x ∈ pre, validCoord x) (acc : ℚ) :
    sumLoop (pre ++ rest) acc = sumLoop rest (acc + residualOf pre) := by
  induction pre generalizing acc with
  | nil => simp [residualOf]
  | cons c cs ih =>
    obtain ⟨h0, h1, hw⟩ := hpre c (by simp)
    have hr : ¬(c.r < 0 ∨ c.r > 1) := by
      rintro (h | h)
      · exact absurd h (not_lt.mpr h0)
      · exact absurd h (not_lt.mpr h1)
    have hcs : ∀ x ∈ cs, validCoord x := fun x hx => hpre x (by simp [hx])
    rw [List.cons_append, sumLoop, if_neg hr, if_neg (not_lt.mpr hw), ih hcs]
    congr 1
    simp [residualOf]
    ring

theorem sumLoop_ok_nonneg (l : List RiskCoord) :
    ∀ acc v : ℚ, sumLoop l acc = .ok v → 0 ≤ acc → 0 ≤ v := by
  induction l with
  | nil =>
    intro acc v h ha
    simp [sumLoop] at h
    exact h ▸ ha
  | cons c cs ih =>
    intro acc v h ha
    rw [sumLoop] at h
    by_cases hr : c.r < 0 ∨ c.r > 1
    · simp [if_pos hr] at h
    · rw [if_neg hr] at h
      by_cases hw : c.w < 0
      · simp [if_pos hw] at h
      · rw [if_neg hw] at h
        push_neg at hr
        exact ih _ v h (add_nonneg ha (mul_nonneg hr.1 (not_lt.mp hw)))

theorem from_raw_eq_of_valid (rc : List RiskCoord) (hne : rc ≠ [])
    (hv : ∀ c ∈ rc, validCoord c) :
    RiskState.from_raw rc = .ok ⟨rc, residualOf rc⟩ := by
  obtain ⟨c, cs, rfl⟩ : ∃ c cs, rc = c :: cs := by
    cases rc with
    | nil => exact absurd rfl hne
    | cons c cs => exact ⟨c, cs, rfl⟩
  rw [RiskState.from_raw, if_neg (by simp), sumLoop_ok_of_valid _ hv 0, zero_add]

theorem from_raw_ok_elim (rc : List RiskCoord) (n : RiskState)
    (h : RiskState.from_raw rc = .ok n) :
    n.coords = rc ∧ sumLoop rc 0 = .ok n.V := by
  rw [RiskState.from_raw] at h
  by_cases he : rc.isEmpty
  · rw [if_pos he] at h
    exact absurd h (by simp)
  · rw [if_neg he] at h
    cases hs : sumLoop rc 0 with
    | error e => rw [hs] at h; exact absurd h (by simp)
    | ok v =>
      rw [hs] at h
      simp only [Except.ok.injEq] at h
      subst h
      exact ⟨rfl, rfl⟩

theorem from_raw_ok_V_nonneg (rc : List RiskCoord) (n : RiskState)
    (h : RiskState.from_raw rc = .ok n) : 0 ≤ n.V :=
  sumLoop_ok_nonneg rc 0 n.V (from_raw_ok_elim rc n h).2 le_rfl

theorem next_ok_elim (s : RiskState) (rc : List RiskCoord) (n : RiskState)
    (h : RiskState.next s rc = .ok n) :
    RiskState.from_raw rc = .ok n ∧ n.V ≤ s.V + eps := by
  rw [RiskState.next] at h
  cases hf : RiskState.from_raw rc with
  | error e => rw [hf] at h; dsimp only at h; exact absurd h (by simp)
  | ok m =>
    rw [hf] at h
    dsimp only at h
    by_cases hgt : m.V > s.V + eps
    · rw [if_pos hgt] at h
      exact absurd h (by simp)
    · rw [if_neg hgt] at h
      simp only [Except.ok.injEq] at h
      subst h
      exact ⟨rfl, not_lt.mp hgt⟩

theorem next_ok_intro (s : RiskState) (rc : List RiskCoord) (n : RiskState)
    (hf : RiskState.from_raw rc = .ok n) (hle : n.V ≤ s.V + eps) :
    RiskState.next s rc = .ok n := by
  rw [RiskState.next, hf]
  dsimp only
  rw [if_neg (not_lt.mpr hle)]

theorem next_error_intro (s : RiskState) (rc : List RiskCoord) (n : RiskState)
    (hf : RiskState.from_raw rc = .ok n) (hlt : s.V + eps < n.V) :
    RiskState.next s rc = .error .residualIncreased := by
  rw [RiskState.next, hf]
  dsimp only
  rw [if_pos hlt]

theorem next_error_elim (s : RiskState) (rc : List RiskCoord) (e : RiskError)
    (h : RiskState.next s rc = .error e) :
    RiskState.from_raw rc = .error e ∨
      (e = .residualIncreased ∧
        ∃ n, RiskState.from_raw rc = .ok n ∧ s.V + eps < n.V) := by
  rw [RiskState.next] at h
  cases hf : RiskState.from_raw rc with
  | error e' =>
    rw [hf] at h
    dsimp only at h
    simp only [Except.error.injEq] at h
    subst h
    exact Or.inl rfl
  | ok m =>
    rw [hf] at h
    dsimp only at h
    by_cases hgt : m.V > s.V + eps
    · rw [if_pos hgt] at h
      simp only [Except.error.injEq] at h
      exact Or.inr ⟨h.symm, m, rfl, hgt⟩
    · rw [if_neg hgt] at h
      exact absurd h (by simp)

/-! ## Claim C1 -/

/-- C1: for every non-empty coordinate sequence in which each r lies in
[0,1] and each w is non-negative, `from_raw` succeeds, and the RiskState
it returns carries exactly the input coordinates together with residual
Σ rᵢ·wᵢ over all coordinates. -/
theorem from_raw_residual_eq_sum (rc : List RiskCoord) (hne : rc ≠ [])
    (hv : ∀ c ∈ rc, validCoord c) :
    RiskState.from_raw rc = .ok ⟨rc, residualOf rc⟩ :=
  from_raw_eq_of_valid rc hne hv

/-- Witness for C1 at the concrete input [(1/2, 2)]. -/
theorem from_raw_residual_eq_sum_witness :
    ([⟨1/2, 2⟩] : List RiskCoord) ≠ [] ∧
    (∀ c ∈ ([⟨1/2, 2⟩] : List RiskCoord), validCoord c) ∧
    RiskState.from_raw [⟨1/2, 2⟩] = .ok ⟨[⟨1/2, 2⟩], residualOf [⟨1/2, 2⟩]⟩ :=
  ⟨by simp, by norm_num [validCoord],
    from_raw_residual_eq_sum [⟨1/2, 2⟩] (by simp) (by norm_num [validCoord])⟩

/-! ## Claim C2 -/

/-- C2: when the candidate coordinates validate, `next` fails with the
residual-increase error exactly when the candidate residual exceeds the
current residual by more than 1e-9, and otherwise returns the candidate
as the new state. -/
theorem next_residual_check (s : RiskState) (rc : List RiskCoord)
    (n : RiskState) (h : RiskState.from_raw rc = .ok n) :
    (RiskState.next s rc = .error .residualIncreased ↔ s.V + eps < n.V) ∧
    (n.V ≤ s.V + eps → RiskState.next s rc = .ok n) := by
  refine ⟨⟨?_, next_error_intro s rc n h⟩, next_ok_intro s rc n h⟩
  intro he
  rcases next_error_elim s rc _ he with hf | ⟨-, m, hm, hlt⟩
  · rw [h] at hf
    exact absurd hf (by simp)
  · rw [h] at hm
    simp only [Except.ok.injEq] at hm
    subst hm
    exact hlt

/-- Witness for C2: from current residual 1, the candidate [(9/10, 2)]
of residual 9/5 is rejected with the residual-increase error. -/
theorem next_residual_check_witness :
    RiskState.from_raw [⟨9/10, 2⟩] = .ok ⟨[⟨9/10, 2⟩], 9/5⟩ ∧
    (RiskState.mk [⟨1/2, 2⟩] 1).next [⟨9/10, 2⟩] =
      .error .residualIncreased := by
  have hf : RiskState.from_raw [⟨9/10, 2⟩] = .ok ⟨[⟨9/10, 2⟩], 9/5⟩ := by
    norm_num [RiskState.from_raw, sumLoop]
  exact ⟨hf, ((next_residual_check ⟨[⟨1/2, 2⟩], 1⟩ [⟨9/10, 2⟩]
    ⟨[⟨9/10, 2⟩], 9/5⟩ hf).1).mpr (by norm_num [eps])⟩

/-! ## Claim C3 -/

/-- C3: a chain of validating coordinate sequences whose successive
residuals are non-increasing within the 1e-9 tolerance is accepted in
full: iterating `next` along it never fails, whatever its length. -/
theorem runChain_ok_of_chainOk (s : RiskState)
    (chain : List (List RiskCoord)) (h : chainOk s.V chain = true) :
    ∃ final : RiskState, runChain s chain = .ok final := by
  induction chain generalizing s with
  | nil => exact ⟨s, rfl⟩
  | cons rc rest ih =>
    rw [chainOk] at h
    cases hf : RiskState.from_raw rc with
    | error e => rw [hf] at h; dsimp only at h; exact absurd h (by simp)
    | ok n =>
      rw [hf] at h
      dsimp only at h
      by_cases hle : n.V ≤ s.V + eps
      · rw [if_pos hle] at h
        obtain ⟨final, hfin⟩ := ih n h
        refine ⟨final, ?_⟩
        rw [runChain, next_ok_intro s rc n hf hle]
        exact hfin
      · rw [if_neg hle] at h
        exact absurd h (by simp)

/-- Witness for C3: from residual 1, the two-step chain with residuals
1/2 then 1/2 is accepted in full. -/
theorem runChain_ok_of_chainOk_witness :
    chainOk (RiskState.mk [⟨1, 1⟩] 1).V [[⟨1/2, 1⟩], [⟨1/2, 1⟩]] = true ∧
    ∃ final, runChain ⟨[⟨1, 1⟩], 1⟩ [[⟨1/2, 1⟩], [⟨1/2, 1⟩]] = .ok final := by
  have h : chainOk (RiskState.mk [⟨1, 1⟩] 1).V [[⟨1/2, 1⟩], [⟨1/2, 1⟩]] = true := by
    norm_num [chainOk, RiskState.from_raw, sumLoop, eps]
  exact ⟨h, runChain_ok_of_chainOk _ _ h⟩

/-! ## Claim C4 -/

/-- C4: the tolerance is inclusive: a validating candidate whose residual
is exactly current.V + 1e-9 is accepted, while a validating candidate
whose residual is exactly current.V + 1e-8 is rejected with the
residual-increase error. -/
theorem next_tolerance_boundary (s : RiskState) (rc₁ rc₂ : List RiskCoord)
    (n₁ n₂ : RiskState)
    (h₁ : RiskState.from_raw rc₁ = .ok n₁)
    (h₂ : RiskState.from_raw rc₂ = .ok n₂)
    (hv₁ : n₁.V = s.V + 1 / 1000000000)
    (hv₂ : n₂.V = s.V + 1 / 100000000) :
    RiskState.next s rc₁ = .ok n₁ ∧
    RiskState.next s rc₂ = .error .residualIncreased := by
  constructor
  · refine next_ok_intro s rc₁ n₁ h₁ ?_
    rw [hv₁]
    unfold eps
    exact le_refl _
  · refine next_error_intro s rc₂ n₂ h₂ ?_
    rw [hv₂]
    unfold eps
    exact add_lt_add_left (by norm_num) s.V

/-- Witness for C4: from residual 1, the candidate of residual
1 + 1e-9 is accepted and the candidate of residual 1 + 1e-8 is
rejected. -/
theorem next_tolerance_boundary_witness :
    RiskState.from_raw [⟨1, 1⟩, ⟨1/1000000000, 1⟩] =
      .ok ⟨[⟨1, 1⟩, ⟨1/1000000000, 1⟩], 1 + 1/1000000000⟩ ∧
    RiskState.from_raw [⟨1, 1⟩, ⟨1/100000000, 1⟩] =
      .ok ⟨[⟨1, 1⟩, ⟨1/100000000, 1⟩], 1 + 1/100000000⟩ ∧
    (RiskState.mk [⟨1, 1⟩] 1).next [⟨1, 1⟩, ⟨1/1000000000, 1⟩] =
      .ok ⟨[⟨1, 1⟩, ⟨1/1000000000, 1⟩], 1 + 1/1000000000⟩ ∧
    (RiskState.mk [⟨1, 1⟩] 1).next [⟨1, 1⟩, ⟨1/100000000, 1⟩] =
      .error .residualIncreased := by
  have h₁ : RiskState.from_raw [⟨1, 1⟩, ⟨1/1000000000, 1⟩] =
      .ok ⟨[⟨1, 1⟩, ⟨1/1000000000, 1⟩], 1 + 1/1000000000⟩ := by
    norm_num [RiskState.from_raw, sumLoop]
  have h₂ : RiskState.from_raw [⟨1, 1⟩, ⟨1/100000000, 1⟩] =
      .ok ⟨[⟨1, 1⟩, ⟨1/100000000, 1⟩], 1 + 1/100000000⟩ := by
    norm_num [RiskState.from_raw, sumLoop]
  have hb := next_tolerance_boundary ⟨[⟨1, 1⟩], 1⟩ _ _ _ _ h₁ h₂
    (by norm_num) (by norm_num)
  exact ⟨h₁, h₂, hb.1, hb.2⟩

/-! ## Claim C5 -/

/-- C5 counterexample: the input [(1/2, −1), (3/2, 1)] contains both an
r outside [0,1] (second coordinate) and a negative w (first coordinate),
yet `from_raw` reports the negative weight — the checks run coordinate by
coordinate, not all r-checks before all w-checks. -/
theorem from_raw_check_order_counterexample :
    RiskState.from_raw [⟨1/2, -1⟩, ⟨3/2, 1⟩] = .error .negativeWeight ∧
    RiskError.negativeWeight ≠ RiskError.riskValueOutOfRange := by
  refine ⟨?_, by decide⟩
  norm_num [RiskState.from_raw, sumLoop]

/-- C5 amended: validation walks the sequence in order checking, for each
coordinate, first r ∈ [0,1] and then w ≥ 0, reporting the first check
that fails: when every coordinate before some invalid coordinate is
valid, the reported error is RiskValueOutOfRangeError exactly when that
coordinate's r is out of range, and NegativeWeightError otherwise (its r
in range, its w negative). -/
theorem from_raw_first_failing_check (pre : List RiskCoord) (c : RiskCoord)
    (post : List RiskCoord) (hpre : ∀ x ∈ pre, validCoord x)
    (hc : ¬validCoord c) :
    RiskState.from_raw (pre ++ c :: post) =
      .error (if c.r < 0 ∨ c.r > 1 then .riskValueOutOfRange
              else .negativeWeight) := by
  rw [RiskState.from_raw, if_neg (by simp),
    sumLoop_append_of_valid pre (c :: post) hpre 0, sumLoop]
  by_cases hr : c.r < 0 ∨ c.r > 1
  · rw [if_pos hr, if_pos hr]
  · rw [if_neg hr, if_neg hr]
    push_neg at hr
    have hw : c.w < 0 := by
      by_contra hw0
      exact hc ⟨hr.1, hr.2, not_lt.mp hw0⟩
    rw [if_pos hw]

/-- Witness for C5 amended: a valid coordinate, then one with both r out
of range and w negative, then another invalid one — the reported error is
the r-range error of the first invalid coordinate. -/
theorem from_raw_first_failing_check_witness :
    (∀ x ∈ ([⟨1/2, 1⟩] : List RiskCoord), validCoord x) ∧
    ¬validCoord (⟨3/2, -5⟩ : RiskCoord) ∧
    RiskState.from_raw ([⟨1/2, 1⟩] ++ ⟨3/2, -5⟩ :: [⟨0, 1⟩]) =
      .error .riskValueOutOfRange := by
  have hpre : ∀ x ∈ ([⟨1/2, 1⟩] : List RiskCoord), validCoord x := by
    norm_num [validCoord]
  have hc : ¬validCoord (⟨3/2, -5⟩ : RiskCoord) := by
    norm_num [validCoord]
  refine ⟨hpre, hc, ?_⟩
  have h := from_raw_first_failing_check [⟨1/2, 1⟩] ⟨3/2, -5⟩ [⟨0, 1⟩] hpre hc
  norm_num at h
  exact h

/-! ## Claim C6 -/

/-- C6: construction from the empty coordinate sequence fails with the
empty-corridor error. -/
theorem from_raw_empty_corridor :
    RiskState.from_raw [] = .error .emptyCorridor := rfl

/-! ## Claim C7 -/

/-- C7: the residual is order-independent: for a valid non-empty
coordinate sequence and any permutation of it, `from_raw` succeeds on
both and returns the same residual. -/
theorem from_raw_residual_perm (rc rc' : List RiskCoord) (hp : rc.Perm rc')
    (hne : rc ≠ []) (hv : ∀ c ∈ rc, validCoord c) :
    ∃ n n', RiskState.from_raw rc = .ok n ∧
      RiskState.from_raw rc' = .ok n' ∧ n.V = n'.V := by
  have hne' : rc' ≠ [] := by
    intro h
    subst h
    exact hne hp.eq_nil
  have hv' : ∀ c ∈ rc', validCoord c := fun c hc => hv c (hp.mem_iff.mpr hc)
  refine ⟨⟨rc, residualOf rc⟩, ⟨rc', residualOf rc'⟩,
    from_raw_eq_of_valid rc hne hv, from_raw_eq_of_valid rc' hne' hv', ?_⟩
  simp only [residualOf]
  exact (hp.map fun c => c.r * c.w).sum_eq

/-- Witness for C7 on the two-element sequence and its swap. -/
theorem from_raw_residual_perm_witness :
    ([⟨1/2, 1⟩, ⟨1, 2⟩] : List RiskCoord).Perm [⟨1, 2⟩, ⟨1/2, 1⟩] ∧
    ∃ n n', RiskState.from_raw [⟨1/2, 1⟩, ⟨1, 2⟩] = .ok n ∧
      RiskState.from_raw [⟨1, 2⟩, ⟨1/2, 1⟩] = .ok n' ∧ n.V = n'.V := by
  have hp : ([⟨1/2, 1⟩, ⟨1, 2⟩] : List RiskCoord).Perm [⟨1, 2⟩, ⟨1/2, 1⟩] :=
    List.Perm.swap _ _ _
  exact ⟨hp, from_raw_residual_perm _ _ hp (by simp) (by norm_num [validCoord])⟩

/-! ## Claim C8 -/

/-- C8: a failed transition is atomic: when `next` fails, no RiskState is
returned at all — so nothing partial can be adopted and the prior state,
a value the pure function cannot mutate, remains the caller's current
state — and the error is either the candidate's validation error,
propagated unchanged, or the residual-increase rejection. -/
theorem next_failure_atomic (s : RiskState) (rc : List RiskCoord)
    (e : RiskError) (h : RiskState.next s rc = .error e) :
    (∀ n : RiskState, RiskState.next s rc ≠ .ok n) ∧
    (RiskState.from_raw rc = .error e ∨
      (e = .residualIncreased ∧
        ∃ n, RiskState.from_raw rc = .ok n ∧ s.V + eps < n.V)) := by
  refine ⟨?_, next_error_elim s rc e h⟩
  intro n hn
  rw [h] at hn
  exact absurd hn (by simp)

/-- Witness for C8 on a rejected residual-increasing transition. -/
theorem next_failure_atomic_witness :
    (RiskState.mk [⟨1, 1⟩] 1).next [⟨1, 2⟩] = .error .residualIncreased ∧
    ∀ n : RiskState, (RiskState.mk [⟨1, 1⟩] 1).next [⟨1, 2⟩] ≠ .ok n := by
  have h : (RiskState.mk [⟨1, 1⟩] 1).next [⟨1, 2⟩] =
      .error .residualIncreased := by
    norm_num [RiskState.next, RiskState.from_raw, sumLoop, eps]
  exact ⟨h, (next_failure_atomic _ _ _ h).1⟩

/-! ## Claim C9 -/

/-- C9: a successful transition returns exactly the state `from_raw`
builds from the next coordinates — same coordinate list, same residual —
and the current state can influence only acceptance, never the value of
the returned state. -/
theorem next_ok_eq_from_raw (s : RiskState) (rc : List RiskCoord)
    (n : RiskState) (h : RiskState.next s rc = .ok n) :
    RiskState.from_raw rc = .ok n ∧ n.coords = rc ∧
    ∀ s' n', RiskState.next s' rc = .ok n' → n' = n := by
  obtain ⟨hf, -⟩ := next_ok_elim s rc n h
  refine ⟨hf, (from_raw_ok_elim rc n hf).1, ?_⟩
  intro s' n' h'
  obtain ⟨hf', -⟩ := next_ok_elim s' rc n' h'
  rw [hf] at hf'
  simp only [Except.ok.injEq] at hf'
  exact hf'.symm

/-- Witness for C9 on an accepted transition. -/
theorem next_ok_eq_from_raw_witness :
    (RiskState.mk [⟨1, 1⟩] 1).next [⟨1/2, 1⟩] = .ok ⟨[⟨1/2, 1⟩], 1/2⟩ ∧
    RiskState.from_raw [⟨1/2, 1⟩] = .ok ⟨[⟨1/2, 1⟩], 1/2⟩ := by
  have h : (RiskState.mk [⟨1, 1⟩] 1).next [⟨1/2, 1⟩] =
      .ok ⟨[⟨1/2, 1⟩], 1/2⟩ := by
    norm_num [RiskState.next, RiskState.from_raw, sumLoop, eps]
  exact ⟨h, (next_ok_eq_from_raw _ _ _ h).1⟩

/-! ## Claim C10 -/

/-- C10: every state reachable through the public operations — initial
construction plus any chain of successful transitions — has a
non-negative residual. -/
theorem reachable_residual_nonneg (s : RiskState) (h : Reachable s) :
    0 ≤ s.V := by
  induction h with
  | construct rc s hf => exact from_raw_ok_V_nonneg rc s hf
  | step s s' rc hr hn ih =>
    exact from_raw_ok_V_nonneg rc s' (next_ok_elim s rc s' hn).1

/-- Witness for C10 at a concretely constructed state. -/
theorem reachable_residual_nonneg_witness :
    Reachable (RiskState.mk [⟨1, 1⟩] 1) ∧
    (0 : ℚ) ≤ (RiskState.mk [⟨1, 1⟩] 1).V := by
  have hr : Reachable (RiskState.mk [⟨1, 1⟩] 1) :=
    Reachable.construct [⟨1, 1⟩] _ (by norm_num [RiskState.from_raw, sumLoop])
  exact ⟨hr, reachable_residual_nonneg _ hr⟩


end CorridorRisk
